import Mathlib

/-!
Verification development for the hdmi-streaming-app repository.

The repository's only executable source is a small Go WebSocket server
(src/main.go); its design document additionally specifies a minimal
live-media core (Segment Store, Ingest Writer, Fan-out Relay, Export
Trigger, Session state machine) that has no implementation under src/.
The Go handler is embedded directly from the source; the media core is
modelled from the specification text, as noted on each definition.
-/

namespace HdmiStreaming

/-! ## WebSocket handler (embedded from src/main.go) -/

/-- A websocket message as passed to gorilla/websocket WriteMessage:
a message type constant (gorilla: TextMessage = 1, BinaryMessage = 2)
and a byte payload, rendered here as a string. -/
structure WsMessage where
  msgType : Nat
  payload : String
deriving DecidableEq

/-- The one message the handler ever writes:
conn.WriteMessage(websocket.TextMessage, []byte("Video frame data")). -/
def frameMessage : WsMessage := ⟨1, "Video frame data"⟩

/-- The write loop of streamHandler, run against a finite trace of
WriteMessage outcomes (true = that call returns a non-nil error).
Returns the messages passed to WriteMessage, in order, and whether the
loop has exited (break happens exactly on the first erroring call; if
the trace is exhausted with no error the loop is still running). -/
def writeLoop : List Bool → List WsMessage × Bool
  | [] => ([], false)
  | e :: rest =>
    if e then ([frameMessage], true)
    else
      let r := writeLoop rest
      (frameMessage :: r.1, r.2)

/-- Observable result of one invocation of streamHandler:
the messages written, whether conn.Close() has run (the deferred close
fires on every exit of the handler after a successful upgrade), and
whether the handler has returned. -/
structure HandlerResult where
  writes : List WsMessage
  connClosed : Bool
  returned : Bool
deriving DecidableEq

/-- Embedding of streamHandler (src/main.go lines 12-29): if the
upgrade fails the handler logs and returns at once, before the deferred
close is registered; otherwise it registers the deferred close and
enters the write loop, so the connection is closed exactly when the
handler exits. -/
def streamHandler (upgradeOk : Bool) (outcomes : List Bool) : HandlerResult :=
  if upgradeOk then
    let r := writeLoop outcomes
    ⟨r.1, r.2, r.2⟩
  else
    ⟨[], false, true⟩

/-! ## Segment Store (modelled from the spec) -/

/-- Modelled from the spec: a Segment is a sequential id (monotonically
increasing, unique per session), byte payload, capture timestamp and
duration, immutable once sealed. No implementation exists under src/. -/
structure Segment where
  id : Nat
  payload : List Nat
  timestamp : Nat
  duration : Nat
deriving DecidableEq

/-- Modelled from the spec: errors surfaced by the Segment Store and
Export Trigger (RangeUnavailable when a requested range is not fully
retained). -/
inductive StoreError where
  | RangeUnavailable
deriving DecidableEq

/-- Modelled from the spec: the Segment Store is a fixed-capacity
ordered buffer of sealed segments, oldest first. Capacity is taken in
segment count (the cumulative-byte bound of the spec is outside the
claims considered here). No implementation exists under src/. -/
structure SegmentStore where
  capacity : Nat
  segments : List Segment
deriving DecidableEq

/-- Modelled from the spec: append(segment) adds a newly sealed segment,
evicting the oldest (strict FIFO) if capacity is exceeded, and returns
the evicted segment's id if any. -/
def SegmentStore.append (st : SegmentStore) (s : Segment) :
    SegmentStore × Option Nat :=
  if st.capacity < st.segments.length + 1 then
    ({ st with segments := (st.segments ++ [s]).tail },
     ((st.segments ++ [s]).head?).map Segment.id)
  else
    ({ st with segments := st.segments ++ [s] }, none)

/-- Sequential appends folded over the store. -/
def appendAll (st : SegmentStore) (L : List Segment) : SegmentStore :=
  L.foldl (fun acc s => (acc.append s).1) st

/-- Whether a segment with the given id is currently retained. -/
def SegmentStore.retains (st : SegmentStore) (i : Nat) : Bool :=
  st.segments.any (fun s => s.id == i)

/-- Modelled from the spec: latestId() returns the most recent sealed
id, or none when the store is empty. -/
def SegmentStore.latestId (st : SegmentStore) : Option Nat :=
  (st.segments.map Segment.id).getLast?

/-- Modelled from the spec: range(fromId, toId) returns the ordered
sequence of retained segments in that id interval, or fails with
RangeUnavailable if any id in the interval is not retained (in
particular if it has been evicted). -/
def SegmentStore.range (st : SegmentStore) (fromId toId : Nat) :
    Except StoreError (List Segment) :=
  if (List.Ico fromId (toId + 1)).all st.retains then
    .ok (st.segments.filter (fun s => fromId ≤ s.id && s.id ≤ toId))
  else
    .error .RangeUnavailable

/-- Well-formedness of a store: retained segment ids strictly increase
along the buffer (guaranteed by monotonic per-session ids). -/
def SegmentStore.WF (st : SegmentStore) : Prop :=
  (st.segments.map Segment.id).Chain' (· < ·)

instance (st : SegmentStore) : Decidable st.WF := by
  unfold SegmentStore.WF; infer_instance

/-! ## Session state machine and Export Trigger (modelled from the spec) -/

/-- Modelled from the spec: the Session state machine
Idle, Ingesting, Terminated, Failed. -/
inductive SessionState where
  | Idle
  | Ingesting
  | Terminated
  | Failed
deriving DecidableEq

/-- Lifecycle events of a Session: ingest begins, the producer stream
ends cleanly, or the producer stream errors. -/
inductive SessionEvent where
  | start
  | endClean
  | endError
deriving DecidableEq

/-- Modelled from the spec: the Session transition function
Idle to Ingesting on start; Ingesting to Terminated on clean end and to
Failed on error; every other event leaves the state unchanged. -/
def SessionState.step : SessionState → SessionEvent → SessionState
  | .Idle, .start => .Ingesting
  | .Ingesting, .endClean => .Terminated
  | .Ingesting, .endError => .Failed
  | s, _ => s

/-- Modelled from the spec: a Session holds its lifecycle state and the
retained segment window. -/
structure Session where
  state : SessionState
  store : SegmentStore
deriving DecidableEq

/-- Modelled from the spec: appends occur only in the Ingesting state;
in any other state the append request leaves the Session unchanged. -/
def Session.appendSeg (ss : Session) (s : Segment) : Session :=
  match ss.state with
  | .Ingesting => { ss with store := (ss.store.append s).1 }
  | _ => ss

/-- Modelled from the spec: export(sessionId, fromId, toId, sink) reads
the requested range and writes the segments in order to the sink; it is
permitted in Ingesting or Terminated and never in Failed (a Failed
session is treated as empty/unavailable, so the call returns
RangeUnavailable); the Segment Store is never mutated. The result pairs
the outcome (the extended sink on success) with the post-call Session. -/
def Session.exportRange (ss : Session) (fromId toId : Nat)
    (sink : List Segment) : Except StoreError (List Segment) × Session :=
  match ss.state with
  | .Ingesting | .Terminated =>
    match ss.store.range fromId toId with
    | .ok segs => (.ok (sink ++ segs), ss)
    | .error e => (.error e, ss)
  | _ => (.error .RangeUnavailable, ss)

/-! ## Ingest Writer (modelled from the spec) -/

/-- Modelled from the spec: the Ingest Writer buffers producer bytes
until a byte threshold is reached, then seals a Segment and appends it
to the Segment Store. No implementation exists under src/. -/
structure IngestWriter where
  buf : List Nat
  nextId : Nat
  sealBytes : Nat
  clock : Nat
deriving DecidableEq

/-- The segment the writer would seal from its current buffer. -/
def IngestWriter.sealed (w : IngestWriter) : Segment :=
  ⟨w.nextId, w.buf, w.clock, w.buf.length⟩

/-- Modelled from the spec: feed one producer byte; when the buffered
bytes reach the threshold, seal a Segment and append it to the store. -/
def IngestWriter.feed (w : IngestWriter) (st : SegmentStore) (b : Nat) :
    IngestWriter × SegmentStore :=
  let w' := { w with buf := w.buf ++ [b] }
  if w.sealBytes ≤ w'.buf.length then
    ({ w' with buf := [], nextId := w.nextId + 1 }, (st.append w'.sealed).1)
  else
    (w', st)

/-- How the producer stream finished: cleanly or with an error. -/
inductive IngestEnd where
  | clean
  | errored
deriving DecidableEq

/-- Modelled from the spec: when the producer stream ends or errors,
any buffered partial data is sealed as a final (possibly short) segment
and appended rather than discarded, and the Session transitions to
Terminated (clean end) or Failed (error). -/
def IngestWriter.finish (w : IngestWriter) (st : SegmentStore)
    (e : IngestEnd) : SegmentStore × SessionState :=
  let st' := if w.buf.isEmpty then st else (st.append w.sealed).1
  (st', match e with | .clean => .Terminated | .errored => .Failed)

/-! ## Fan-out Relay (modelled from the spec) -/

/-- Modelled from the spec: a Viewer Connection registered with the
Fan-out Relay: a connection handle, the segment id it starts from
(given at attach time, defaulting to the latest sealed id), its bounded
outbound queue of segments not yet consumed, and the segments the
viewer has consumed so far, in delivery order. -/
structure ViewerConn where
  handle : Nat
  startAt : Nat
  queue : List Segment
  delivered : List Segment
deriving DecidableEq

/-- Modelled from the spec: the Fan-out Relay holds the fixed
per-viewer outbound queue bound, the attached viewers, and the handles
for which a disconnection has been signalled. -/
structure Relay where
  queueCap : Nat
  viewers : List ViewerConn
  disconnected : List Nat
deriving DecidableEq

/-- One viewer's fate when a newly appended segment is pushed: a
segment below the viewer's start id is not for this viewer; otherwise
it is enqueued if the bounded queue has room, and the viewer is dropped
(none) if the queue is full. -/
def pushViewer (cap : Nat) (s : Segment) (v : ViewerConn) :
    Option ViewerConn :=
  if s.id < v.startAt then some v
  else if v.queue.length < cap then some { v with queue := v.queue ++ [s] }
  else none

/-- Whether the push of segment s drops viewer v (queue full and the
segment was due to it). -/
def dropsViewer (cap : Nat) (s : Segment) (v : ViewerConn) : Bool :=
  v.startAt ≤ s.id && cap ≤ v.queue.length

/-- Modelled from the spec: for each newly appended segment the Relay
pushes it to every attached viewer independently; a viewer whose
bounded queue is full is dropped and its disconnection signalled
(drop-slow-viewer, never drop-for-everyone). The function is total:
the producer is never blocked, whatever the viewers' queue states. -/
def Relay.push (r : Relay) (s : Segment) : Relay :=
  { r with
    viewers := r.viewers.filterMap (pushViewer r.queueCap s)
    disconnected := r.disconnected ++
      ((r.viewers.filter (dropsViewer r.queueCap s)).map ViewerConn.handle) }

/-- Events driving the Relay together with the ingest side: attaching a
viewer (with an optional start id), detaching it, appending a newly
sealed segment, and a viewer consuming the head of its queue. -/
inductive RelayEvent where
  | attach (h : Nat) (startAt : Option Nat)
  | detach (h : Nat)
  | append (s : Segment)
  | consume (h : Nat)
deriving DecidableEq

/-- Modelled from the spec: the Relay plus the latest sealed segment id
of the Session (0 when no segment has been sealed; ids are positive and
strictly increasing). -/
structure RelaySys where
  relay : Relay
  latest : Nat
deriving DecidableEq

/-- A viewer consuming one segment from the head of its outbound
queue. -/
def consumeViewer (h : Nat) (v : ViewerConn) : ViewerConn :=
  if v.handle = h then
    match v.queue with
    | [] => v
    | q :: rest => { v with queue := rest, delivered := v.delivered ++ [q] }
  else v

/-- Modelled from the spec: one step of the Relay system. attach
registers a fresh handle with startAt defaulting to the latest sealed
id; detach removes idempotently; append pushes a segment with a new
(strictly larger, monotonic) id to all viewers and advances latest,
ignoring stale ids; consume lets one viewer take the head of its
queue. -/
def RelaySys.step (sys : RelaySys) : RelayEvent → RelaySys
  | .attach h so =>
    if (sys.relay.viewers.map ViewerConn.handle).contains h then sys
    else
      { sys with relay := { sys.relay with
          viewers := sys.relay.viewers ++
            [⟨h, so.getD sys.latest, [], []⟩] } }
  | .detach h =>
    { sys with relay := { sys.relay with
        viewers := sys.relay.viewers.filter (fun v => v.handle ≠ h) } }
  | .append s =>
    if sys.latest < s.id then
      { relay := sys.relay.push s, latest := s.id }
    else sys
  | .consume h =>
    { sys with relay := { sys.relay with
        viewers := sys.relay.viewers.map (consumeViewer h) } }

/-- Running the Relay system from an empty relay with the given
per-viewer queue bound. -/
def RelaySys.run (cap : Nat) (events : List RelayEvent) : RelaySys :=
  events.foldl RelaySys.step ⟨⟨cap, [], []⟩, 0⟩

/-- Per-viewer well-formedness relative to the latest sealed id: along
the consumed-then-queued segment sequence the ids strictly increase,
every id is at most the latest sealed one, and no id is below the
viewer's start id. -/
def ViewerConn.wf (latest : Nat) (v : ViewerConn) : Prop :=
  ((v.delivered ++ v.queue).map Segment.id).Chain' (· < ·)
  ∧ ∀ x ∈ v.delivered ++ v.queue, x.id ≤ latest ∧ v.startAt ≤ x.id

/-- Invariant of the Relay system: every attached viewer is
well-formed with respect to the latest sealed id. -/
def RelaySys.Inv (sys : RelaySys) : Prop :=
  ∀ v ∈ sys.relay.viewers, ViewerConn.wf sys.latest v

/-! ## Concrete fixtures used in scenario conjuncts and witnesses -/

/-- A concrete segment with the given id, used by the scenario parts of
the theorems below. -/
def mkSeg (i : Nat) : Segment := ⟨i, [], i, 1⟩

/-- The append sequence of the capacity-3 export scenario. -/
def scenarioAppends : List Segment := [mkSeg 1, mkSeg 2, mkSeg 3, mkSeg 4]

/-- The event sequence of the attach-at-latest scenario: ids 1 and 2
are appended, a viewer attaches at the default (latest) position, id 3
is appended, and the viewer consumes its queue. -/
def scenarioEvents : List RelayEvent :=
  [.append (mkSeg 1), .append (mkSeg 2), .attach 7 none,
   .append (mkSeg 3), .consume 7, .consume 7]

/-! ## Helper lemmas -/

/-- The write loop only ever passes the fixed frame message to
WriteMessage, and it has exited exactly when some call in the trace
returned an error. -/
theorem writeLoop_spec (outcomes : List Bool) :
    (∀ m ∈ (writeLoop outcomes).1, m = frameMessage)
    ∧ ((writeLoop outcomes).2 = true ↔ true ∈ outcomes) := by
  induction outcomes with
  | nil => simp [writeLoop]
  | cons e rest ih =>
    cases e with
    | true => simp [writeLoop]
    | false =>
      refine ⟨?_, ?_⟩
      · intro m hm
        rw [show writeLoop (false :: rest)
              = (frameMessage :: (writeLoop rest).1, (writeLoop rest).2) from rfl] at hm
        rcases List.mem_cons.1 hm with h | h
        · exact h
        · exact ih.1 m h
      · rw [show (writeLoop (false :: rest)).2 = (writeLoop rest).2 from rfl]
        simpa using ih.2

/-- Appending preserves the configured capacity. -/
theorem append_capacity (st : SegmentStore) (s : Segment) :
    (st.append s).1.capacity = st.capacity := by
  unfold SegmentStore.append
  split <;> rfl

/-- The retained buffer after an append, as a drop of the extended
buffer: everything except the part that exceeds capacity, the excess
being removed from the front (FIFO). -/
theorem append_segments_eq (st : SegmentStore) (s : Segment)
    (h : st.segments.length ≤ st.capacity) :
    (st.append s).1.segments
      = (st.segments ++ [s]).drop (st.segments.length + 1 - st.capacity) := by
  unfold SegmentStore.append
  by_cases hc : st.capacity < st.segments.length + 1
  · rw [if_pos hc]
    have h1 : st.segments.length + 1 - st.capacity = 1 := by omega
    rw [h1, List.drop_one]
  · rw [if_neg hc]
    have h0 : st.segments.length + 1 - st.capacity = 0 := by omega
    rw [h0, List.drop_zero]

/-- With a positive capacity the newly appended segment is always the
newest retained one. -/
theorem append_getLast (st : SegmentStore) (s : Segment)
    (hc : 0 < st.capacity) :
    (st.append s).1.segments.getLast? = some s := by
  unfold SegmentStore.append
  by_cases hlt : st.capacity < st.segments.length + 1
  · rw [if_pos hlt]
    cases hseg : st.segments with
    | nil =>
      rw [hseg] at hlt
      simp only [List.length_nil] at hlt
      omega
    | cons hd tl =>
      show (hd :: (tl ++ [s])).tail.getLast? = some s
      exact List.getLast?_concat _
  · rw [if_neg hlt]
    exact List.getLast?_concat _

/-- Folding appends keeps the retained buffer equal to the
capacity-sized tail window of everything ever appended. -/
theorem appendAll_window (C : Nat) (L : List Segment) :
    ∀ (acc : SegmentStore) (P : List Segment), acc.capacity = C →
      acc.segments = P.drop (P.length - C) →
      (appendAll acc L).segments = (P ++ L).drop ((P ++ L).length - C) := by
  induction L with
  | nil =>
    intro acc P hc hs
    simpa [appendAll] using hs
  | cons s rest ih =>
    intro acc P hc hs
    have hlen : acc.segments.length ≤ C := by
      rw [hs, List.length_drop]; omega
    have hstep : appendAll acc (s :: rest) = appendAll (acc.append s).1 rest := rfl
    rw [hstep]
    have hwin : (acc.append s).1.segments
        = (P ++ [s]).drop ((P ++ [s]).length - C) := by
      rw [append_segments_eq acc s (by rw [hc]; exact hlen), hs, hc]
      rw [← @List.drop_append_of_le_length _ P [s] (P.length - C)
        (by omega : P.length - C ≤ P.length)]
      rw [List.drop_drop]
      congr 1
      simp only [List.length_drop, List.length_append, List.length_cons,
        List.length_nil]
      omega
    have := ih (acc.append s).1 (P ++ [s])
      (by rw [append_capacity]; exact hc) hwin
    rw [this]
    simp [List.append_assoc]

/-- strict id chains are preserved along sublists. -/
theorem chain_lt_sublist {l₁ l₂ : List Nat}
    (h : l₂.Chain' (· < ·)) (hs : l₁.Sublist l₂) : l₁.Chain' (· < ·) :=
  List.Chain'.sublist h hs

/-! ## Claim theorems -/

/-- C1: starting empty with capacity C, any append sequence leaves the
Segment Store holding exactly the C most recently appended segments
(the tail window of the append history), never more than C segments,
in id order whenever the appended ids are monotonic; and whenever an
append evicts, it removes exactly the oldest retained segment and
reports its id (strict FIFO). -/
theorem segment_store_fifo_window (C : Nat) (L : List Segment) :
    (appendAll ⟨C, []⟩ L).segments = L.drop (L.length - C)
    ∧ (appendAll ⟨C, []⟩ L).segments.length ≤ C
    ∧ ((L.map Segment.id).Chain' (· < ·) →
        ((appendAll ⟨C, []⟩ L).segments.map Segment.id).Chain' (· < ·))
    ∧ (∀ (st : SegmentStore) (s hd : Segment) (tl : List Segment),
        st.segments = hd :: tl → (st.append s).2 ≠ none →
        (st.append s).2 = some hd.id ∧ (st.append s).1.segments = tl ++ [s]) := by
  have hmain : (appendAll ⟨C, []⟩ L).segments = L.drop (L.length - C) := by
    have h := appendAll_window C L ⟨C, []⟩ [] rfl (by simp)
    simpa using h
  refine ⟨hmain, ?_, ?_, ?_⟩
  · rw [hmain, List.length_drop]
    omega
  · intro hch
    rw [hmain]
    exact chain_lt_sublist hch ((List.drop_sublist _ _).map Segment.id)
  · intro st s hd tl hseg hne
    by_cases hc : st.capacity < st.segments.length + 1
    · have h2 : (st.append s).2 = some hd.id := by
        unfold SegmentStore.append
        rw [if_pos hc, hseg]
        rfl
      have h1 : (st.append s).1.segments = tl ++ [s] := by
        unfold SegmentStore.append
        rw [if_pos hc, hseg]
        rfl
      exact ⟨h2, h1⟩
    · exfalso
      apply hne
      unfold SegmentStore.append
      rw [if_neg hc]

/-- Witness for C1: capacity 2 with three appends retains the last two
ids; an eviction at capacity 1 removes exactly the oldest segment. -/
theorem segment_store_fifo_window_witness :
    (appendAll ⟨2, []⟩ [mkSeg 1, mkSeg 2, mkSeg 3]).segments
        = [mkSeg 1, mkSeg 2, mkSeg 3].drop ([mkSeg 1, mkSeg 2, mkSeg 3].length - 2)
    ∧ (((appendAll ⟨2, []⟩ [mkSeg 1, mkSeg 2, mkSeg 3]).segments.map
          Segment.id).Chain' (· < ·))
    ∧ ((SegmentStore.append ⟨1, [mkSeg 1]⟩ (mkSeg 2)).2 = some (mkSeg 1).id
        ∧ (SegmentStore.append ⟨1, [mkSeg 1]⟩ (mkSeg 2)).1.segments
            = [] ++ [mkSeg 2]) :=
  ⟨(segment_store_fifo_window 2 [mkSeg 1, mkSeg 2, mkSeg 3]).1,
   (segment_store_fifo_window 2 [mkSeg 1, mkSeg 2, mkSeg 3]).2.2.1
     (by simp [List.chain'_cons, mkSeg]),
   (segment_store_fifo_window 2 [mkSeg 1, mkSeg 2, mkSeg 3]).2.2.2
     ⟨1, [mkSeg 1]⟩ (mkSeg 2) (mkSeg 1) [] rfl (by decide)⟩

/-- C2: when every id of the closed interval [fromId, toId] is
retained, range (and hence export) returns all segments of that range
in strictly increasing id order with no duplicates and no gaps (the id
list is exactly the interval); when any id of the interval is not
retained (in particular, evicted), the call fails with
RangeUnavailable. With capacity 3, after appending ids 1,2,3,4 the
store holds ids 2,3,4, export of [1,2] fails with RangeUnavailable and
export of [3,4] yields segments 3 and 4. -/
theorem range_export_contract (st : SegmentStore) (fromId toId i : Nat) :
    (st.WF → (List.Ico fromId (toId + 1)).all st.retains = true →
      ∃ l, st.range fromId toId = .ok l
        ∧ l.map Segment.id = List.Ico fromId (toId + 1)
        ∧ (l.map Segment.id).Chain' (· < ·))
    ∧ (fromId ≤ i → i ≤ toId → st.retains i = false →
        st.range fromId toId = .error .RangeUnavailable)
    ∧ (appendAll ⟨3, []⟩ scenarioAppends).segments
        = [mkSeg 2, mkSeg 3, mkSeg 4]
    ∧ (Session.exportRange
        ⟨.Ingesting, appendAll ⟨3, []⟩ scenarioAppends⟩ 1 2 []).1
        = .error .RangeUnavailable
    ∧ (Session.exportRange
        ⟨.Ingesting, appendAll ⟨3, []⟩ scenarioAppends⟩ 3 4 []).1
        = .ok [mkSeg 3, mkSeg 4] := by
  refine ⟨?_, ?_, by decide, by rfl, by rfl⟩
  · intro hwf hall
    refine ⟨st.segments.filter (fun s => fromId ≤ s.id && s.id ≤ toId),
      ?_, ?_, ?_⟩
    · unfold SegmentStore.range
      rw [if_pos hall]
    · have hch : ((st.segments.filter
          (fun s => fromId ≤ s.id && s.id ≤ toId)).map Segment.id).Chain'
            (· < ·) :=
        chain_lt_sublist hwf ((List.filter_sublist _).map Segment.id)
      have hnd1 : ((st.segments.filter
          (fun s => fromId ≤ s.id && s.id ≤ toId)).map Segment.id).Nodup :=
        (List.chain'_iff_pairwise.mp hch).nodup
      have hnd2 := List.Ico.nodup fromId (toId + 1)
      have hmem : ∀ a, a ∈ (st.segments.filter
          (fun s => fromId ≤ s.id && s.id ≤ toId)).map Segment.id
            ↔ a ∈ List.Ico fromId (toId + 1) := by
        intro a
        constructor
        · intro ha
          rcases List.mem_map.1 ha with ⟨u, hu, hua⟩
          rcases List.mem_filter.1 hu with ⟨humem, hp⟩
          simp only [Bool.and_eq_true, decide_eq_true_eq] at hp
          exact List.Ico.mem.2 ⟨by omega, by omega⟩
        · intro ha
          rcases List.Ico.mem.1 ha with ⟨h1, h2⟩
          have hret : st.retains a = true :=
            List.all_eq_true.mp hall a ha
          unfold SegmentStore.retains at hret
          rcases List.any_eq_true.mp hret with ⟨u, hu, hb⟩
          have hid : u.id = a := by simpa using hb
          refine List.mem_map.2 ⟨u, List.mem_filter.2 ⟨hu, ?_⟩, hid⟩
          simp only [Bool.and_eq_true, decide_eq_true_eq]
          omega
      have hperm := (List.perm_ext_iff_of_nodup hnd1 hnd2).2 hmem
      have hs1 : List.Sorted (· ≤ ·) ((st.segments.filter
          (fun s => fromId ≤ s.id && s.id ≤ toId)).map Segment.id) :=
        (List.chain'_iff_pairwise.mp hch).imp le_of_lt
      have hs2 : List.Sorted (· ≤ ·) (List.Ico fromId (toId + 1)) :=
        (List.Ico.pairwise_lt fromId (toId + 1)).imp le_of_lt
      exact List.eq_of_perm_of_sorted hperm hs1 hs2
    · exact chain_lt_sublist hwf ((List.filter_sublist _).map Segment.id)
  · intro h1 h2 hret
    have hcond : ¬ ((List.Ico fromId (toId + 1)).all st.retains = true) := by
      rw [List.all_eq_true]
      intro hall
      have h := hall i (List.Ico.mem.2 ⟨h1, by omega⟩)
      rw [hret] at h
      exact absurd h (by simp)
    unfold SegmentStore.range
    rw [if_neg hcond]

/-- Witness for C2: the capacity-3 scenario store with ids 2,3,4
serves the range [3,4] completely and refuses the range [1,2]. -/
theorem range_export_contract_witness :
    (∃ l, SegmentStore.range ⟨3, [mkSeg 2, mkSeg 3, mkSeg 4]⟩ 3 4 = .ok l
        ∧ l.map Segment.id = List.Ico 3 (4 + 1)
        ∧ (l.map Segment.id).Chain' (· < ·))
    ∧ SegmentStore.range ⟨3, [mkSeg 2, mkSeg 3, mkSeg 4]⟩ 1 2
        = .error .RangeUnavailable :=
  ⟨(range_export_contract ⟨3, [mkSeg 2, mkSeg 3, mkSeg 4]⟩ 3 4 1).1
      (by simp [SegmentStore.WF, List.chain'_cons, mkSeg]) (by decide),
   (range_export_contract ⟨3, [mkSeg 2, mkSeg 3, mkSeg 4]⟩ 1 2 1).2.1
      (by decide) (by decide) (by decide)⟩

/-- C7: the Session state machine only makes the transitions
Idle to Ingesting and Ingesting to Terminated or Failed (every other
event is a self-loop); appends mutate the store only in Ingesting and
are ignored elsewhere; export reads succeed only in Ingesting or
Terminated; against a Failed session any export attempt returns
RangeUnavailable. -/
theorem session_state_machine (s : SessionState) (e : SessionEvent)
    (ss : Session) (sg : Segment) (fromId toId : Nat)
    (sink : List Segment) :
    (s.step e = s ∨ (s = .Idle ∧ s.step e = .Ingesting)
      ∨ (s = .Ingesting ∧ (s.step e = .Terminated ∨ s.step e = .Failed)))
    ∧ (ss.state ≠ .Ingesting → ss.appendSeg sg = ss)
    ∧ (ss.state = .Ingesting →
        (ss.appendSeg sg).store = (ss.store.append sg).1)
    ∧ ((ss.state = .Ingesting ∨ ss.state = .Terminated) →
        ∀ segs, ss.store.range fromId toId = .ok segs →
          (ss.exportRange fromId toId sink).1 = .ok (sink ++ segs))
    ∧ (ss.state = .Failed →
        (ss.exportRange fromId toId sink).1 = .error .RangeUnavailable) := by
  refine ⟨?_, ?_, ?_, ?_, ?_⟩
  · cases s <;> cases e <;> simp [SessionState.step]
  · intro h
    rcases ss with ⟨st, store⟩
    cases st <;> simp_all [Session.appendSeg]
  · intro h
    rcases ss with ⟨st, store⟩
    cases st <;> simp_all [Session.appendSeg]
  · intro h segs hr
    rcases ss with ⟨st, store⟩
    simp only at h hr
    cases st <;> simp_all [Session.exportRange]
  · intro h
    rcases ss with ⟨st, store⟩
    simp only at h
    cases st <;> simp_all [Session.exportRange]

/-- C3: pushing a newly appended segment through the Fan-out Relay
never blocks the producer (push is a total function of the relay
state); a viewer whose bounded outbound queue is already full is
dropped by that very push (so within one subsequent due append) and
its disconnection is signalled, while every other attached viewer with
room receives the segment at the back of its queue, missing nothing. -/
theorem relay_drops_slow_viewer (r : Relay) (s : Segment) (v : ViewerConn)
    (hnd : (r.viewers.map ViewerConn.handle).Nodup)
    (hv : v ∈ r.viewers)
    (hfull : r.queueCap ≤ v.queue.length)
    (hdue : v.startAt ≤ s.id) :
    v.handle ∈ (r.push s).disconnected
    ∧ (∀ w ∈ (r.push s).viewers, w.handle ≠ v.handle)
    ∧ (∀ w ∈ r.viewers, w.handle ≠ v.handle →
        w.queue.length < r.queueCap → w.startAt ≤ s.id →
        { w with queue := w.queue ++ [s] } ∈ (r.push s).viewers) := by
  refine ⟨?_, ?_, ?_⟩
  · show v.handle ∈ r.disconnected ++
      ((r.viewers.filter (dropsViewer r.queueCap s)).map ViewerConn.handle)
    apply List.mem_append.2
    right
    apply List.mem_map.2
    refine ⟨v, List.mem_filter.2 ⟨hv, ?_⟩, rfl⟩
    unfold dropsViewer
    simp only [Bool.and_eq_true, decide_eq_true_eq]
    exact ⟨hdue, hfull⟩
  · intro w hw
    rcases List.mem_filterMap.1 hw with ⟨u, hu, hpu⟩
    have hh : w.handle = u.handle := by
      unfold pushViewer at hpu
      by_cases h1 : s.id < u.startAt
      · rw [if_pos h1] at hpu
        cases hpu
        rfl
      · rw [if_neg h1] at hpu
        by_cases h2 : u.queue.length < r.queueCap
        · rw [if_pos h2] at hpu
          cases hpu
          rfl
        · rw [if_neg h2] at hpu
          cases hpu
    intro hwv
    have huveq : u.handle = v.handle := by
      rw [← hh]
      exact hwv
    have huv : u = v := List.inj_on_of_nodup_map hnd hu hv huveq
    subst huv
    unfold pushViewer at hpu
    rw [if_neg (by omega), if_neg (by omega)] at hpu
    cases hpu
  · intro w hw hwh hroom hwdue
    apply List.mem_filterMap.2
    refine ⟨w, hw, ?_⟩
    unfold pushViewer
    rw [if_neg (by omega), if_pos hroom]

/-- Witness for C3: with queue bound 1, a full viewer 1 is dropped and
signalled by the push of segment 2 while viewer 2 receives it. -/
theorem relay_drops_slow_viewer_witness :
    (1 : Nat) ∈ (Relay.push
        ⟨1, [⟨1, 0, [mkSeg 1], []⟩, ⟨2, 0, [], []⟩], []⟩
        (mkSeg 2)).disconnected
    ∧ (∀ w ∈ (Relay.push
        ⟨1, [⟨1, 0, [mkSeg 1], []⟩, ⟨2, 0, [], []⟩], []⟩
        (mkSeg 2)).viewers, w.handle ≠ 1)
    ∧ ({ handle := 2, startAt := 0, queue := [] ++ [mkSeg 2],
          delivered := [] } : ViewerConn) ∈ (Relay.push
        ⟨1, [⟨1, 0, [mkSeg 1], []⟩, ⟨2, 0, [], []⟩], []⟩
        (mkSeg 2)).viewers := by
  have h := relay_drops_slow_viewer
    ⟨1, [⟨1, 0, [mkSeg 1], []⟩, ⟨2, 0, [], []⟩], []⟩ (mkSeg 2)
    ⟨1, 0, [mkSeg 1], []⟩ (by decide) (by decide) (by decide) (by decide)
  exact ⟨h.1, h.2.1,
    h.2.2 ⟨2, 0, [], []⟩ (by decide) (by decide) (by decide) (by decide)⟩

/-- Witness for C7: a Terminated session ignores appends but serves
exports; a Failed session returns RangeUnavailable; an Ingesting
session appends through to its store. -/
theorem session_state_machine_witness :
    Session.appendSeg ⟨.Terminated, ⟨3, []⟩⟩ (mkSeg 1) = ⟨.Terminated, ⟨3, []⟩⟩
    ∧ (Session.exportRange ⟨.Failed, ⟨3, [mkSeg 1]⟩⟩ 1 1 []).1
        = .error .RangeUnavailable
    ∧ (Session.exportRange ⟨.Terminated, ⟨3, [mkSeg 1]⟩⟩ 1 1 []).1
        = .ok ([] ++ [mkSeg 1])
    ∧ (Session.appendSeg ⟨.Ingesting, ⟨3, []⟩⟩ (mkSeg 1)).store
        = (SegmentStore.append ⟨3, []⟩ (mkSeg 1)).1 :=
  ⟨(session_state_machine .Idle .start ⟨.Terminated, ⟨3, []⟩⟩ (mkSeg 1) 1 1
      []).2.1 (by decide),
   (session_state_machine .Idle .start ⟨.Failed, ⟨3, [mkSeg 1]⟩⟩ (mkSeg 1) 1 1
      []).2.2.2.2 rfl,
   (session_state_machine .Idle .start ⟨.Terminated, ⟨3, [mkSeg 1]⟩⟩ (mkSeg 1)
      1 1 []).2.2.2.1 (Or.inr rfl) [mkSeg 1] (by rfl),
   (session_state_machine .Idle .start ⟨.Ingesting, ⟨3, []⟩⟩ (mkSeg 1) 1 1
      []).2.2.1 rfl⟩

/-- C9: every message streamHandler writes on an accepted /ws
connection is a websocket text message (gorilla type 1) whose payload
is exactly the bytes of "Video frame data", and the write loop exits
exactly when a WriteMessage call returns an error. -/
theorem streamHandler_frame_messages (outcomes : List Bool) :
    (∀ m ∈ (streamHandler true outcomes).writes,
        m.msgType = 1 ∧ m.payload = "Video frame data")
    ∧ ((streamHandler true outcomes).returned = true ↔ true ∈ outcomes) := by
  have hw : streamHandler true outcomes
      = ⟨(writeLoop outcomes).1, (writeLoop outcomes).2, (writeLoop outcomes).2⟩ := rfl
  rw [hw]
  refine ⟨?_, (writeLoop_spec outcomes).2⟩
  intro m hm
  have := (writeLoop_spec outcomes).1 m hm
  rw [this]
  exact ⟨rfl, rfl⟩

/-- Witness for C9 at the concrete outcome trace [false, true]. -/
theorem streamHandler_frame_messages_witness :
    (frameMessage.msgType = 1 ∧ frameMessage.payload = "Video frame data")
    ∧ ((streamHandler true [false, true]).returned = true ↔ true ∈ [false, true]) :=
  ⟨(streamHandler_frame_messages [false, true]).1 frameMessage
      (by simp [streamHandler, writeLoop]),
   (streamHandler_frame_messages [false, true]).2⟩

/-- C10: when the upgrade fails the handler returns without writing
anything (and no connection exists to close); when the upgrade
succeeds, on every exit of the handler the deferred conn.Close() has
run. -/
theorem streamHandler_close_on_exit (outcomes : List Bool) :
    streamHandler false outcomes = ⟨[], false, true⟩
    ∧ ((streamHandler true outcomes).returned = true →
        (streamHandler true outcomes).connClosed = true) := by
  refine ⟨rfl, ?_⟩
  intro h
  exact h

/-- Witness for C10 at the concrete outcome trace [true]. -/
theorem streamHandler_close_on_exit_witness :
    streamHandler false [true] = ⟨[], false, true⟩
    ∧ (streamHandler true [true]).connClosed = true :=
  ⟨(streamHandler_close_on_exit [true]).1,
   (streamHandler_close_on_exit [true]).2 rfl⟩

/-- C8: export never mutates the Session or its Segment Store: the
post-call Session is the pre-call one, whether the call succeeds or
fails. -/
theorem exportRange_read_only (ss : Session) (fromId toId : Nat)
    (sink : List Segment) :
    (ss.exportRange fromId toId sink).2 = ss
    ∧ (ss.exportRange fromId toId sink).2.store.segments = ss.store.segments := by
  have h : (ss.exportRange fromId toId sink).2 = ss := by
    rcases ss with ⟨st, store⟩
    cases st <;>
      simp only [Session.exportRange] <;>
      cases store.range fromId toId <;> rfl
  exact ⟨h, by rw [h]⟩

/-- C6: whenever the producer stream ends or errors with a nonempty
partial buffer, the Ingest Writer seals the buffered bytes as a final
(possibly short) segment and appends it to the Segment Store rather
than discarding it; with a positive capacity that final segment is the
newest retained one, and the Session moves to Terminated on a clean end
and Failed on an error. -/
theorem ingest_finish_seals_partial (w : IngestWriter) (st : SegmentStore)
    (e : IngestEnd) (h : w.buf ≠ []) :
    w.sealed.payload = w.buf
    ∧ (w.finish st e).1 = (st.append w.sealed).1
    ∧ (0 < st.capacity → (w.finish st e).1.segments.getLast? = some w.sealed)
    ∧ ((w.finish st e).2 = .Terminated ↔ e = .clean)
    ∧ ((w.finish st e).2 = .Failed ↔ e = .errored) := by
  have hne : w.buf.isEmpty = false := by
    cases hb : w.buf with
    | nil => exact absurd hb h
    | cons a l => rfl
  have hfin : (w.finish st e).1 = (st.append w.sealed).1 := by
    unfold IngestWriter.finish
    simp [hne]
  refine ⟨rfl, hfin, ?_, ?_, ?_⟩
  · intro hc
    rw [hfin]
    exact append_getLast st w.sealed hc
  · cases e <;> simp [IngestWriter.finish]
  · cases e <;> simp [IngestWriter.finish]

/-- Every step of the Relay system preserves the per-viewer
well-formedness invariant. -/
theorem step_inv (sys : RelaySys) (ev : RelayEvent) (h : sys.Inv) :
    (sys.step ev).Inv := by
  cases ev with
  | attach a so =>
    unfold RelaySys.step
    dsimp only
    by_cases hc : (sys.relay.viewers.map ViewerConn.handle).contains a = true
    · rw [if_pos hc]
      exact h
    · rw [if_neg hc]
      intro v hv
      rcases List.mem_append.1 hv with h1 | h1
      · exact h v h1
      · have hveq : v = ⟨a, so.getD sys.latest, [], []⟩ := by
          simpa using h1
        subst hveq
        exact ⟨by simp, by simp⟩
  | detach a =>
    unfold RelaySys.step
    dsimp only
    intro v hv
    exact h v (List.mem_of_mem_filter hv)
  | consume a =>
    unfold RelaySys.step
    dsimp only
    intro v hv
    rcases List.mem_map.1 hv with ⟨u, hu, huv⟩
    have hwf := h u hu
    rw [← huv]
    unfold consumeViewer
    by_cases h1 : u.handle = a
    · rw [if_pos h1]
      cases hq : u.queue with
      | nil => exact hwf
      | cons q rest =>
        have hlist : (u.delivered ++ [q]) ++ rest = u.delivered ++ u.queue := by
          rw [hq]
          simp
        unfold ViewerConn.wf at hwf ⊢
        refine ⟨?_, ?_⟩
        · show (((u.delivered ++ [q]) ++ rest).map Segment.id).Chain' (· < ·)
          rw [hlist]
          exact hwf.1
        · intro x hx
          show x.id ≤ sys.latest ∧ u.startAt ≤ x.id
          apply hwf.2
          rw [← hlist]
          exact hx
    · rw [if_neg h1]
      exact hwf
  | append s =>
    unfold RelaySys.step
    dsimp only
    by_cases hlt : sys.latest < s.id
    · rw [if_pos hlt]
      intro v hv
      rcases List.mem_filterMap.1 hv with ⟨u, hu, hpu⟩
      have hwf := h u hu
      unfold pushViewer at hpu
      by_cases h1 : s.id < u.startAt
      · rw [if_pos h1] at hpu
        cases hpu
        exact ⟨hwf.1, fun x hx =>
          ⟨le_trans (hwf.2 x hx).1 (le_of_lt hlt), (hwf.2 x hx).2⟩⟩
      · rw [if_neg h1] at hpu
        by_cases h2 : u.queue.length < sys.relay.queueCap
        · rw [if_pos h2] at hpu
          cases hpu
          unfold ViewerConn.wf at hwf ⊢
          refine ⟨?_, ?_⟩
          · show ((u.delivered ++ (u.queue ++ [s])).map Segment.id).Chain'
              (· < ·)
            rw [← List.append_assoc, List.map_append]
            apply List.chain'_append.2
            refine ⟨hwf.1, List.chain'_singleton _, ?_⟩
            intro x hx y hy
            have hy' : s.id = y := by simpa using hy
            subst hy'
            have hx' : x ∈ (u.delivered ++ u.queue).map Segment.id :=
              List.mem_of_getLast?_eq_some hx
            rcases List.mem_map.1 hx' with ⟨z, hz, hzx⟩
            have hzl := (hwf.2 z hz).1
            omega
          · intro x hx
            show x.id ≤ s.id ∧ u.startAt ≤ x.id
            rw [← List.append_assoc] at hx
            rcases List.mem_append.1 hx with h3 | h3
            · rcases hwf.2 x h3 with ⟨ha, hb⟩
              exact ⟨le_trans ha (le_of_lt hlt), hb⟩
            · have hxs : x = s := by simpa using h3
              subst hxs
              exact ⟨le_refl _, by omega⟩
        · rw [if_neg h2] at hpu
          cases hpu
    · rw [if_neg hlt]
      exact h

/-- The invariant holds in every state reachable from the empty Relay
system. -/
theorem run_inv (cap : Nat) (events : List RelayEvent) :
    (RelaySys.run cap events).Inv := by
  have hgen : ∀ (es : List RelayEvent) (sys : RelaySys), sys.Inv →
      (es.foldl RelaySys.step sys).Inv := by
    intro es
    induction es with
    | nil =>
      intro sys hs
      exact hs
    | cons e rest ih =>
      intro sys hs
      exact ih (sys.step e) (step_inv sys e hs)
  apply hgen
  intro v hv
  exact absurd hv (List.not_mem_nil v)

/-- C4: in every reachable Relay state, every attached viewer has been
delivered its segments in strictly increasing id order, so no segment
was delivered twice to it while attached. -/
theorem viewer_delivery_strictly_increasing (cap : Nat)
    (events : List RelayEvent) (v : ViewerConn)
    (hv : v ∈ (RelaySys.run cap events).relay.viewers) :
    ((v.delivered.map Segment.id).Chain' (· < ·))
    ∧ (v.delivered.map Segment.id).Nodup := by
  have hwf := run_inv cap events v hv
  have hch : ((v.delivered ++ v.queue).map Segment.id).Chain' (· < ·) :=
    hwf.1
  have hsub : (v.delivered.map Segment.id).Sublist
      ((v.delivered ++ v.queue).map Segment.id) :=
    (List.sublist_append_left _ _).map Segment.id
  have hc := chain_lt_sublist hch hsub
  exact ⟨hc, (List.chain'_iff_pairwise.mp hc).nodup⟩

/-- Witness for C4: the viewer of the attach-at-latest scenario, whose
delivered list is exactly segment 3. -/
theorem viewer_delivery_strictly_increasing_witness :
    ((([mkSeg 3] : List Segment).map Segment.id).Chain' (· < ·))
    ∧ (([mkSeg 3] : List Segment).map Segment.id).Nodup :=
  viewer_delivery_strictly_increasing 5 scenarioEvents
    ⟨7, 2, [], [mkSeg 3]⟩ (by decide)

/-- C5: in every reachable Relay state, no attached viewer has ever
been delivered a segment with id below its start id (the id given at
attach time, defaulting to the latest sealed id); in the scenario where
ids 1 and 2 are appended, a viewer attaches at the default position and
id 3 is appended, the viewer's start id is 2 and it receives exactly
segment 3. -/
theorem viewer_no_early_delivery (cap : Nat) (events : List RelayEvent)
    (v : ViewerConn) (hv : v ∈ (RelaySys.run cap events).relay.viewers)
    (s : Segment) (hs : s ∈ v.delivered) :
    v.startAt ≤ s.id
    ∧ (RelaySys.run 5 scenarioEvents).relay.viewers.map ViewerConn.startAt
        = [2]
    ∧ (RelaySys.run 5 scenarioEvents).relay.viewers.map ViewerConn.delivered
        = [[mkSeg 3]] := by
  refine ⟨?_, by decide, by decide⟩
  have hwf := run_inv cap events v hv
  exact (hwf.2 s (List.mem_append.2 (Or.inl hs))).2

/-- Witness for C5: the scenario viewer started at id 2 and received
segment 3. -/
theorem viewer_no_early_delivery_witness :
    (2 : Nat) ≤ (mkSeg 3).id
    ∧ (RelaySys.run 5 scenarioEvents).relay.viewers.map ViewerConn.startAt
        = [2]
    ∧ (RelaySys.run 5 scenarioEvents).relay.viewers.map ViewerConn.delivered
        = [[mkSeg 3]] :=
  viewer_no_early_delivery 5 scenarioEvents ⟨7, 2, [], [mkSeg 3]⟩
    (by decide) (mkSeg 3) (by decide)

/-- Witness for C6: a writer holding two buffered bytes at an errored
end of stream. -/
theorem ingest_finish_seals_partial_witness :
    (IngestWriter.sealed ⟨[9, 9], 5, 10, 3⟩).payload = [9, 9]
    ∧ (IngestWriter.finish ⟨[9, 9], 5, 10, 3⟩ ⟨3, []⟩ .errored).1
        = (SegmentStore.append ⟨3, []⟩ (IngestWriter.sealed ⟨[9, 9], 5, 10, 3⟩)).1
    ∧ (IngestWriter.finish ⟨[9, 9], 5, 10, 3⟩ ⟨3, []⟩ .errored).1.segments.getLast?
        = some (IngestWriter.sealed ⟨[9, 9], 5, 10, 3⟩)
    ∧ ((IngestWriter.finish ⟨[9, 9], 5, 10, 3⟩ ⟨3, []⟩ .errored).2 = .Failed) := by
  have h := ingest_finish_seals_partial ⟨[9, 9], 5, 10, 3⟩ ⟨3, []⟩ .errored (by decide)
  exact ⟨h.1, h.2.1, h.2.2.1 (by decide), h.2.2.2.2.2 rfl⟩

end HdmiStreaming
